import Mathlib

/-!
Verification of the pupil-localization pipeline of the `iris` repository
(`internal/location`).  The algorithmic parts of the Go source are shallowly
embedded below: pure loops become folds over explicit index lists, machine
integers become `Nat`/`Int` (with an explicit 16-bit wrap where the source
stores vote counters in a CV_16S matrix), the `float64` scale multiplier
becomes an exact rational (every comparison and rounding the source performs
on it is exact in `float64` for the values that arise, as noted at each use
site), and the floating-point trigonometric sample used by
`calcCirclePoints`, together with the OpenCV `Resize` interpolation — both
external library computations with no exact computable embedding — are
parameters (an `Oracle`).  Fallible pixel reads (unchecked `Mat::at`, which
is undefined behavior out of bounds in release builds) are modelled in
`Option`, `none` standing for the fault.
-/

set_option maxRecDepth 2000

namespace Iris

/-- Mirror of Go `image.Point` as used by the source: `x` is the column
offset, `y` the row offset. -/
structure Point where
  x : Int
  y : Int
deriving DecidableEq, Repr

/-- Mirror of the Go `Circle` type (`internal/location`): an embedded
`image.Point` (so `X` is the column, `Y` the row) plus a radius `R`. -/
structure Circle where
  X : Int
  Y : Int
  R : Int
deriving DecidableEq, Repr

/-- One iteration of the accumulation loop of `calcCirclePoints`: append the
sampled point to `ret` when it differs from `last`, and remember it. -/
def calcStep (sample : Nat → Point) (st : List Point × Point) (i : Nat) :
    List Point × Point :=
  let p := sample i
  if p ≠ st.2 then (st.1 ++ [p], p) else st

/-- Mirror of Go `calcCirclePoints`.  The loop body samples
`int(float64(r)*math.Cos(float64(i)*math.Pi/180.0))` (and `Sin`) for
`i = 0,…,359`; that float computation has no exact computable embedding, so
the integer-rounded sample for the radius at hand is a parameter
`sample : Nat → Point` (degree index ↦ offset).  `last` starts from the Go
zero value `image.Point{}`, exactly as in the source. -/
def calcCirclePoints (sample : Nat → Point) : List Point :=
  ((List.range 360).foldl (calcStep sample) ([], ⟨0, 0⟩)).1

/-- `destutter'` always keeps its sentinel head. -/
theorem destutter_ne_head (a : Point) (l : List Point) :
    List.destutter' (· ≠ ·) a l = a :: (List.destutter' (· ≠ ·) a l).tail := by
  induction l generalizing a with
  | nil => rfl
  | cons b l ih =>
    rw [List.destutter'_cons]
    split
    · rfl
    · exact ih a

/-- The accumulation loop of `calcCirclePoints` computes exactly the tail of
Mathlib's `destutter'` with the zero point as sentinel head. -/
theorem calcFold_eq_destutter (sample : Nat → Point) (l : List Nat) :
    ∀ (acc : List Point) (last : Point),
      (l.foldl (calcStep sample) (acc, last)).1 =
        acc ++ (List.destutter' (· ≠ ·) last (l.map sample)).tail := by
  induction l with
  | nil => intro acc last; simp
  | cons i l ih =>
    intro acc last
    simp only [List.foldl_cons, List.map_cons]
    by_cases h : sample i = last
    · have hstep : calcStep sample (acc, last) i = (acc, last) := by
        simp [calcStep, h]
      rw [hstep, ih, List.destutter'_cons_neg]
      simpa using h.symm
    · have hstep : calcStep sample (acc, last) i = (acc ++ [sample i], sample i) := by
        simp [calcStep, h]
      rw [hstep, ih, List.destutter'_cons_pos _ (Ne.symm h)]
      rw [List.tail_cons, destutter_ne_head (sample i), List.tail_cons,
        List.append_assoc, List.singleton_append]

/-- No two consecutive offsets of `calcCirclePoints` are identical. -/
theorem calcCirclePoints_chain (sample : Nat → Point) :
    List.Chain' (· ≠ ·) (calcCirclePoints sample) := by
  have hfold := calcFold_eq_destutter sample (List.range 360) [] ⟨0, 0⟩
  rw [List.nil_append] at hfold
  rw [calcCirclePoints, hfold]
  exact (List.destutter'_is_chain' _ _ _).tail

/-- When the 0° sample is not the zero offset (the sentinel), the
accumulated list is exactly the destuttered sweep. -/
theorem calcCirclePoints_eq_destutter (sample : Nat → Point)
    (h0 : sample 0 ≠ ⟨0, 0⟩) :
    calcCirclePoints sample =
      List.destutter (· ≠ ·) ((List.range 360).map sample) := by
  have hfold := calcFold_eq_destutter sample (List.range 360) [] ⟨0, 0⟩
  rw [List.nil_append] at hfold
  rw [calcCirclePoints, hfold]
  have h360 : List.range 360 = 0 :: (List.range 359).map (· + 1) :=
    List.range_succ_eq_map 359
  rw [h360, List.map_cons, List.destutter'_cons_pos _ (Ne.symm h0),
    List.tail_cons, List.destutter_cons']

/--
C9.  `calcCirclePoints` (the geometry table's pointsOnCircle computation)
returns the 1°-resolution 360-degree sweep with consecutive duplicate
offsets collapsed — formally it equals `destutter (· ≠ ·)` of the 360 samples
whenever the 0° sample is not the zero offset (which holds for the real trig
sample at every nonzero radius, since `cos 0 = 1` exactly so the 0° sample is
`(r, 0)`) — and consequently no two consecutive offsets in the returned
sequence are identical, for every sample function.
-/
theorem calcCirclePoints_collapsed (sample : Nat → Point) :
    List.Chain' (· ≠ ·) (calcCirclePoints sample) ∧
    (sample 0 ≠ ⟨0, 0⟩ →
      calcCirclePoints sample =
        List.destutter (· ≠ ·) ((List.range 360).map sample)) := by
  have hfold := calcFold_eq_destutter sample (List.range 360) [] ⟨0, 0⟩
  rw [List.nil_append] at hfold
  constructor
  · rw [calcCirclePoints, hfold]
    exact (List.destutter'_is_chain' _ _ _).tail
  · intro h0
    rw [calcCirclePoints, hfold]
    have h360 : List.range 360 = 0 :: (List.range 359).map (· + 1) :=
      List.range_succ_eq_map 359
    rw [h360, List.map_cons, List.destutter'_cons_pos _ (Ne.symm h0),
      List.tail_cons, List.destutter_cons']

/-- A concrete stand-in sweep used by witnesses: `(5,0)` at 0° and the zero
offset at every later degree. -/
def sweepFive : Nat → Point := fun i => if i = 0 then ⟨5, 0⟩ else ⟨0, 0⟩

/-- Witness for C9 at the concrete sample function `sweepFive`, discharging
the hypothesis of the destutter characterization. -/
theorem calcCirclePoints_collapsed_witness :
    calcCirclePoints sweepFive =
      List.destutter (· ≠ ·) ((List.range 360).map sweepFive) :=
  (calcCirclePoints_collapsed sweepFive).2 (by decide)

/-! ### The image type and the `fillHoles` morphological utility -/

/-- A single-channel OpenCV matrix: `Size()[0] = rows`, `Size()[1] = cols`,
and a total pixel function (CV_8U values; `pix r c` is the image content for
`r < rows` and `c < cols`, and the embedded operations below only ever read
it there). -/
structure Mat where
  rows : Nat
  cols : Nat
  pix : Nat → Nat → Nat

theorem Mat.eq_of (a b : Mat) (hr : a.rows = b.rows) (hc : a.cols = b.cols)
    (hp : a.pix = b.pix) : a = b := by
  cases a; cases b; simp_all

/-- The cells written to 255 by the two border loops at the top of
`fillHoles`: the first loop writes columns `0` and `cols-1` of every row,
the second writes rows `0` and `rows-1` at columns `1 … cols-2`. -/
def borderWritten (m : Mat) (r c : Nat) : Prop :=
  (r < m.rows ∧ (c = 0 ∨ c = m.cols - 1)) ∨
    ((r = 0 ∨ r = m.rows - 1) ∧ 1 ≤ c ∧ c + 1 < m.cols)

instance (m : Mat) (r c : Nat) : Decidable (borderWritten m r c) := by
  unfold borderWritten; infer_instance

/-- The two border-whitening loops of `fillHoles`. -/
def whiteBorder (m : Mat) : Mat :=
  ⟨m.rows, m.cols, fun r c => if borderWritten m r c then 255 else m.pix r c⟩

/-- In-bounds test for a signed cell coordinate `(row, col)`. -/
def inBoundsZ (m : Mat) (p : Int × Int) : Prop :=
  0 ≤ p.1 ∧ p.1 < m.rows ∧ 0 ≤ p.2 ∧ p.2 < m.cols

instance (m : Mat) (p : Int × Int) : Decidable (inBoundsZ m p) := by
  unfold inBoundsZ; infer_instance

/-- Pixel read at a signed cell coordinate (meaningful in bounds). -/
def pixZ (m : Mat) (p : Int × Int) : Nat :=
  m.pix p.1.toNat p.2.toNat

/-- The 4-neighborhood used by `gocv.FloodFill` (default connectivity). -/
def nbrs (p : Int × Int) : List (Int × Int) :=
  [(p.1 - 1, p.2), (p.1 + 1, p.2), (p.1, p.2 - 1), (p.1, p.2 + 1)]

/-- Record one candidate cell during a flood expansion: keep it iff it is in
bounds, carries the seed's value `sv`, and is not already recorded. -/
def floodIns (m : Mat) (sv : Nat) (acc : List (Int × Int)) (q : Int × Int) :
    List (Int × Int) :=
  if inBoundsZ m q ∧ pixZ m q = sv ∧ q ∉ acc then acc ++ [q] else acc

/-- One frontier-expansion step of the flood fill: append every 4-neighbor
of an already-reached cell that is in bounds, carries the seed's value `sv`,
and has not been recorded yet. -/
def floodStep (m : Mat) (sv : Nat) (S : List (Int × Int)) : List (Int × Int) :=
  (S.flatMap nbrs).foldl (floodIns m sv) S

/-- The seed's 4-connected same-value component, computed by `rows * cols`
frontier expansions — enough to reach every cell of the component, since a
shortest path repeats no cell.  Models the region selection of
`gocv.FloodFill`. -/
def floodReach (m : Mat) (seed : Int × Int) : List (Int × Int) :=
  (floodStep m (pixZ m seed))^[m.rows * m.cols] [seed]

/-- Mirror of the `gocv.FloodFill(&ret, image.Point{0, 0}, black)` call:
every cell of the seed's component is overwritten with 0.  (When the seed is
already black this overwrites black with black, the identity, exactly as in
OpenCV.) -/
def floodFillBlack (m : Mat) (seed : Int × Int) : Mat :=
  ⟨m.rows, m.cols, fun r c =>
    if ((r : Int), (c : Int)) ∈ floodReach m seed then 0 else m.pix r c⟩

/-- Mirror of `gocv.BitwiseNot` on an 8-bit image: `~v = 255 - v`. -/
def bitwiseNot (m : Mat) : Mat :=
  ⟨m.rows, m.cols, fun r c => 255 - m.pix r c⟩

/-- Mirror of `gocv.BitwiseAnd` (dimensions are the first operand's; the
source only applies it to images of identical size). -/
def bitwiseAnd (a b : Mat) : Mat :=
  ⟨a.rows, a.cols, fun r c => a.pix r c &&& b.pix r c⟩

/-- Mirror of Go `fillHoles`: clone, paint the border white, flood the
border-connected white region to black from `(0,0)`, invert, and AND with
the original, erasing the white blobs not connected to the border. -/
def fillHoles (src : Mat) : Mat :=
  bitwiseAnd src (bitwiseNot (floodFillBlack (whiteBorder src) (0, 0)))

/--
C10.  `fillHoles` never adds foreground: every pixel of the output is at
most the corresponding input pixel, because the final step is a bitwise AND
with the original input.
-/
theorem fillHoles_le (m : Mat) (r c : Nat) :
    (fillHoles m).pix r c ≤ m.pix r c :=
  Nat.and_le_left

/-! ### Flood-fill membership lemmas, towards idempotence of `fillHoles` -/

theorem mem_foldl_floodIns_of_mem (m : Mat) (sv : Nat)
    (batch : List (Int × Int)) :
    ∀ (acc : List (Int × Int)) (p : Int × Int), p ∈ acc →
      p ∈ batch.foldl (floodIns m sv) acc := by
  induction batch with
  | nil => intro acc p hp; simpa using hp
  | cons b bs ih =>
    intro acc p hp
    simp only [List.foldl_cons]
    refine ih _ p ?_
    unfold floodIns
    split
    · exact List.mem_append_left _ hp
    · exact hp

theorem mem_foldl_floodIns_cases (m : Mat) (sv : Nat)
    (batch : List (Int × Int)) :
    ∀ (acc : List (Int × Int)) (p : Int × Int),
      p ∈ batch.foldl (floodIns m sv) acc →
      p ∈ acc ∨ (p ∈ batch ∧ inBoundsZ m p ∧ pixZ m p = sv) := by
  induction batch with
  | nil => intro acc p hp; exact Or.inl (by simpa using hp)
  | cons b bs ih =>
    intro acc p hp
    simp only [List.foldl_cons] at hp
    rcases ih _ p hp with hacc | ⟨hbs, hb⟩
    · unfold floodIns at hacc
      split at hacc
      · rcases List.mem_append.1 hacc with h | h
        · exact Or.inl h
        · have hpb : p = b := by simpa using h
          subst hpb
          rename_i hcond
          exact Or.inr ⟨List.mem_cons_self _ _, hcond.1, hcond.2.1⟩
      · exact Or.inl hacc
    · exact Or.inr ⟨List.mem_cons_of_mem _ hbs, hb⟩

theorem mem_foldl_floodIns_of_batch (m : Mat) (sv : Nat)
    (batch : List (Int × Int)) :
    ∀ (acc : List (Int × Int)) (p : Int × Int), p ∈ batch →
      inBoundsZ m p → pixZ m p = sv →
      p ∈ batch.foldl (floodIns m sv) acc := by
  induction batch with
  | nil => intro acc p hp; exact absurd hp (List.not_mem_nil p)
  | cons b bs ih =>
    intro acc p hp hin hpx
    simp only [List.foldl_cons]
    rcases List.mem_cons.1 hp with hpb | hbs
    · subst hpb
      refine mem_foldl_floodIns_of_mem m sv bs _ p ?_
      unfold floodIns
      split
      · exact List.mem_append_right _ (List.mem_singleton_self p)
      · rename_i hcond
        push_neg at hcond
        exact hcond hin hpx
    · exact ih _ p hbs hin hpx

theorem mem_floodStep_of_mem (m : Mat) (sv : Nat) (S : List (Int × Int))
    (p : Int × Int) (hp : p ∈ S) : p ∈ floodStep m sv S :=
  mem_foldl_floodIns_of_mem m sv _ S p hp

theorem mem_floodStep_cases (m : Mat) (sv : Nat) (S : List (Int × Int))
    (p : Int × Int) (hp : p ∈ floodStep m sv S) :
    p ∈ S ∨ (inBoundsZ m p ∧ pixZ m p = sv ∧ ∃ q ∈ S, p ∈ nbrs q) := by
  rcases mem_foldl_floodIns_cases m sv _ S p hp with h | ⟨hb, hin, hpx⟩
  · exact Or.inl h
  · rcases List.mem_flatMap.1 hb with ⟨q, hq, hnb⟩
    exact Or.inr ⟨hin, hpx, q, hq, hnb⟩

theorem mem_floodStep_add (m : Mat) (sv : Nat) (S : List (Int × Int))
    (p q : Int × Int) (hq : q ∈ S) (hnb : p ∈ nbrs q)
    (hin : inBoundsZ m p) (hpx : pixZ m p = sv) : p ∈ floodStep m sv S :=
  mem_foldl_floodIns_of_batch m sv _ S p
    (List.mem_flatMap.2 ⟨q, hq, hnb⟩) hin hpx

theorem mem_floodIter_mono (m : Mat) (sv : Nat) (S : List (Int × Int))
    (p : Int × Int) :
    ∀ i j, i ≤ j → p ∈ (floodStep m sv)^[i] S → p ∈ (floodStep m sv)^[j] S := by
  intro i j hij hp
  induction j with
  | zero => simpa [Nat.le_zero.1 hij] using hp
  | succ j ihj =>
    rcases Nat.lt_or_ge i (j + 1) with hlt | hge
    · have := ihj (Nat.lt_succ_iff.1 hlt)
      rw [Function.iterate_succ_apply']
      exact mem_floodStep_of_mem m sv _ p this
    · have : i = j + 1 := Nat.le_antisymm hij hge
      subst this
      exact hp

theorem mem_floodIter_white (m : Mat) (sv : Nat) (seed : Int × Int) :
    ∀ (k : Nat) (p : Int × Int), p ∈ (floodStep m sv)^[k] [seed] →
      p = seed ∨ (inBoundsZ m p ∧ pixZ m p = sv) := by
  intro k
  induction k with
  | zero => intro p hp; exact Or.inl (by simpa using hp)
  | succ k ih =>
    intro p hp
    rw [Function.iterate_succ_apply'] at hp
    rcases mem_floodStep_cases m sv _ p hp with h | ⟨hin, hpx, _⟩
    · exact ih p h
    · exact Or.inr ⟨hin, hpx⟩

/-- Transfer of flood reachability to a second image that is white (value
`sv`) everywhere the first image's reached component is. -/
theorem floodIter_transfer (m m' : Mat) (sv : Nat) (seed : Int × Int)
    (n : Nat) (hrows : m'.rows = m.rows) (hcols : m'.cols = m.cols)
    (H : ∀ q, q ∈ (floodStep m sv)^[n] [seed] → inBoundsZ m q →
      pixZ m q = sv → pixZ m' q = sv) :
    ∀ k, k ≤ n → ∀ p, p ∈ (floodStep m sv)^[k] [seed] →
      p ∈ (floodStep m' sv)^[k] [seed] := by
  intro k
  induction k with
  | zero => intro _ p hp; simpa using hp
  | succ k ih =>
    intro hk p hp
    have hk' : k ≤ n := Nat.le_of_succ_le hk
    rw [Function.iterate_succ_apply'] at hp ⊢
    rcases mem_floodStep_cases m sv _ p hp with h | ⟨hin, hpx, q, hq, hnb⟩
    · exact mem_floodStep_of_mem m' sv _ p (ih hk' p h)
    · have hpn : p ∈ (floodStep m sv)^[n] [seed] := by
        refine mem_floodIter_mono m sv _ p (k + 1) n hk ?_
        rw [Function.iterate_succ_apply']
        exact hp
      have hin' : inBoundsZ m' p := by
        unfold inBoundsZ at hin ⊢
        rw [hrows, hcols]
        exact hin
      exact mem_floodStep_add m' sv _ p q (ih hk' q hq) hnb hin'
        (H p hpn hin hpx)

/-- An 8-bit value ANDed with its 8-bit complement is zero. -/
theorem and_compl255 (v : Nat) : v &&& (255 - v) = 0 := by
  rcases Nat.lt_or_ge v 256 with h | h
  · have hfin : ∀ w : Fin 256, (w : Nat) &&& (255 - (w : Nat)) = 0 := by decide
    exact hfin ⟨v, h⟩
  · have : 255 - v = 0 := Nat.sub_eq_zero_of_le (by omega)
    rw [this, Nat.and_zero]

/-- After the border loops, the seed `(0,0)` of the flood fill is white. -/
theorem whiteBorder_seed (src : Mat) (hr : 0 < src.rows) (_hc : 0 < src.cols) :
    pixZ (whiteBorder src) (0, 0) = 255 := by
  have hbw : borderWritten src 0 0 := Or.inl ⟨hr, Or.inl rfl⟩
  show (if borderWritten src 0 0 then 255 else src.pix 0 0) = 255
  rw [if_pos hbw]

/-- Cells written by the border loops are in bounds (for a nonempty image). -/
theorem borderWritten_lt (m : Mat) (hr : 0 < m.rows) (hc : 0 < m.cols)
    (r c : Nat) (h : borderWritten m r c) : r < m.rows ∧ c < m.cols := by
  unfold borderWritten at h
  rcases h with ⟨h1, h2⟩ | ⟨h1, _, h3⟩
  · refine ⟨h1, ?_⟩
    rcases h2 with h2 | h2 <;> omega
  · refine ⟨?_, by omega⟩
    rcases h1 with h1 | h1 <;> omega

/-- Every cell reached by the flood is in bounds and white. -/
theorem floodReach_white (src : Mat) (hr : 0 < src.rows) (hc : 0 < src.cols) :
    ∀ p ∈ floodReach (whiteBorder src) (0, 0),
      inBoundsZ (whiteBorder src) p ∧ pixZ (whiteBorder src) p = 255 := by
  intro p hp
  rw [floodReach, whiteBorder_seed src hr hc] at hp
  rcases mem_floodIter_white _ 255 _ _ p hp with h | h
  · subst h
    refine ⟨?_, whiteBorder_seed src hr hc⟩
    show (0 : Int) ≤ 0 ∧ (0 : Int) < src.rows ∧ (0 : Int) ≤ 0 ∧
      (0 : Int) < src.cols
    omega
  · exact h

/-- Pixel-level description of `fillHoles` at a cell holding a binary value:
the output is white exactly when the input is white there and the cell is
reached by the border flood. -/
theorem fillHoles_pix (src : Mat) (r c : Nat)
    (hb : src.pix r c = 0 ∨ src.pix r c = 255) :
    (fillHoles src).pix r c =
      if src.pix r c = 255 ∧
          ((r : Int), (c : Int)) ∈ floodReach (whiteBorder src) (0, 0)
      then 255 else 0 := by
  show src.pix r c &&&
      (255 - (floodFillBlack (whiteBorder src) (0, 0)).pix r c) = _
  rcases hb with h0 | h255
  · rw [h0, Nat.zero_and]
    rw [if_neg]
    intro hcond
    exact absurd hcond.1 (by omega)
  · have hwb : (whiteBorder src).pix r c = 255 := by
      unfold whiteBorder
      simp [h255]
    show src.pix r c &&&
        (255 - if ((r : Int), (c : Int)) ∈ floodReach (whiteBorder src) (0, 0)
          then 0 else (whiteBorder src).pix r c) = _
    by_cases hmem : ((r : Int), (c : Int)) ∈ floodReach (whiteBorder src) (0, 0)
    · rw [if_pos hmem, if_pos ⟨h255, hmem⟩, h255]
      decide
    · rw [if_neg hmem, if_neg (fun hcond => hmem hcond.2), hwb,
        Nat.sub_self, Nat.and_zero]

/-- Out of bounds, `fillHoles` produces zero (the AND of a value with its
complement), for a nonempty image. -/
theorem fillHoles_pix_oob (src : Mat) (hr : 0 < src.rows) (hc : 0 < src.cols)
    (r c : Nat) (h : ¬(r < src.rows ∧ c < src.cols)) :
    (fillHoles src).pix r c = 0 := by
  have hnb : ¬ borderWritten src r c := fun hb =>
    h (borderWritten_lt src hr hc r c hb)
  have hnm : ((r : Int), (c : Int)) ∉ floodReach (whiteBorder src) (0, 0) := by
    intro hm
    obtain ⟨_, h2, _, h4⟩ := (floodReach_white src hr hc _ hm).1
    have h2' : (r : Int) < src.rows := h2
    have h4' : (c : Int) < src.cols := h4
    exact h ⟨by exact_mod_cast h2', by exact_mod_cast h4'⟩
  show src.pix r c &&&
      (255 - (floodFillBlack (whiteBorder src) (0, 0)).pix r c) = 0
  show src.pix r c &&&
      (255 - if ((r : Int), (c : Int)) ∈ floodReach (whiteBorder src) (0, 0)
        then 0 else (whiteBorder src).pix r c) = 0
  rw [if_neg hnm]
  show src.pix r c &&&
      (255 - if borderWritten src r c then 255 else src.pix r c) = 0
  rw [if_neg hnb, and_compl255]

/-- `fillHoles` output is binary wherever the input is. -/
theorem fillHoles_bin (src : Mat) (r c : Nat)
    (hb : src.pix r c = 0 ∨ src.pix r c = 255) :
    (fillHoles src).pix r c = 0 ∨ (fillHoles src).pix r c = 255 := by
  rw [fillHoles_pix src r c hb]
  split
  · exact Or.inr rfl
  · exact Or.inl rfl

/--
C8.  The hole-filler is idempotent: on a binary input image (of positive
size, as required for the border loops and the `(0,0)` flood seed to be in
bounds), applying `fillHoles` twice yields the same image as applying it
once.
-/
theorem fillHoles_idem (src : Mat) (hr : 0 < src.rows) (hc : 0 < src.cols)
    (hbin : ∀ r, r < src.rows → ∀ c, c < src.cols →
      src.pix r c = 0 ∨ src.pix r c = 255) :
    fillHoles (fillHoles src) = fillHoles src := by
  refine Mat.eq_of _ _ rfl rfl ?_
  funext r c
  by_cases hin : r < src.rows ∧ c < src.cols
  · obtain ⟨hrr, hcc⟩ := hin
    have hbrc := hbin r hrr c hcc
    have houtbin : (fillHoles src).pix r c = 0 ∨ (fillHoles src).pix r c = 255 :=
      fillHoles_bin src r c hbrc
    rw [fillHoles_pix (fillHoles src) r c houtbin]
    rcases houtbin with h0 | h255
    · rw [h0, if_neg]
      intro hcond
      exact absurd hcond.1 (by omega)
    · have hcond : src.pix r c = 255 ∧
          ((r : Int), (c : Int)) ∈ floodReach (whiteBorder src) (0, 0) := by
        by_contra hnc
        rw [fillHoles_pix src r c hbrc, if_neg hnc] at h255
        exact absurd h255 (by omega)
      have hseed1 : pixZ (whiteBorder src) (0, 0) = 255 :=
        whiteBorder_seed src hr hc
      have hseed2 : pixZ (whiteBorder (fillHoles src)) (0, 0) = 255 :=
        whiteBorder_seed (fillHoles src) hr hc
      have hH : ∀ q, q ∈ (floodStep (whiteBorder src) 255)^[src.rows * src.cols]
            [((0 : Int), (0 : Int))] →
          inBoundsZ (whiteBorder src) q → pixZ (whiteBorder src) q = 255 →
          pixZ (whiteBorder (fillHoles src)) q = 255 := by
        intro q hq hinq hpq
        obtain ⟨hq1, hq2, hq3, hq4⟩ := hinq
        have hq2' : q.1 < (src.rows : Int) := hq2
        have hq4' : q.2 < (src.cols : Int) := hq4
        have hqeq : ((q.1.toNat : Int), (q.2.toNat : Int)) = q := by
          rw [Int.toNat_of_nonneg hq1, Int.toNat_of_nonneg hq3]
        have hqr : q.1.toNat < src.rows := by omega
        have hqc : q.2.toNat < src.cols := by omega
        show (whiteBorder (fillHoles src)).pix q.1.toNat q.2.toNat = 255
        unfold whiteBorder
        simp only
        by_cases hbw : borderWritten (fillHoles src) q.1.toNat q.2.toNat
        · rw [if_pos hbw]
        · rw [if_neg hbw]
          have hbw' : ¬ borderWritten src q.1.toNat q.2.toNat := hbw
          have hsrc255 : src.pix q.1.toNat q.2.toNat = 255 := by
            have : (whiteBorder src).pix q.1.toNat q.2.toNat = 255 := hpq
            unfold whiteBorder at this
            simp only at this
            rwa [if_neg hbw'] at this
          rw [fillHoles_pix src q.1.toNat q.2.toNat
            (hbin q.1.toNat hqr q.2.toNat hqc)]
          rw [if_pos]
          refine ⟨hsrc255, ?_⟩
          rw [floodReach, hseed1, hqeq]
          exact hq
      have hmem2 : ((r : Int), (c : Int)) ∈
          floodReach (whiteBorder (fillHoles src)) (0, 0) := by
        have h1 : ((r : Int), (c : Int)) ∈
            (floodStep (whiteBorder src) 255)^[src.rows * src.cols]
              [((0 : Int), (0 : Int))] := by
          have := hcond.2
          rwa [floodReach, hseed1] at this
        have h2 := floodIter_transfer (whiteBorder src)
          (whiteBorder (fillHoles src)) 255 (0, 0) (src.rows * src.cols)
          rfl rfl hH (src.rows * src.cols) (le_refl _) _ h1
        rw [floodReach, hseed2]
        exact h2
      rw [if_pos ⟨h255, hmem2⟩, h255]
  · rw [fillHoles_pix_oob (fillHoles src) hr hc r c hin,
      fillHoles_pix_oob src hr hc r c hin]

/-- A 5×5 binary image with an enclosed white cell at its center. -/
def holeImage : Mat :=
  ⟨5, 5, fun r c => if r = 2 ∧ c = 2 then 255 else 0⟩

/-- Witness for C8: idempotence at the concrete image `holeImage`. -/
theorem fillHoles_idem_witness :
    fillHoles (fillHoles holeImage) = fillHoles holeImage :=
  fillHoles_idem holeImage (by decide) (by decide)
    (by decide)

/-! ### The two-stage circle search engine (`findBestCircle`) -/

/-- The external computations the search engine depends on but that live
outside the repository: the integer-rounded trigonometric sample behind
`calcCirclePoints` for each radius (`sample r i` stands for
`(int(r·cos(i·π/180)), int(r·sin(i·π/180)))` in `float64`), and the pixel
content produced by `gocv.Resize` (float bilinear interpolation;
`resize im nr nc` is the pixel function of `im` resized to `nr × nc`).
Every theorem below holds for all oracles unless it pins a concrete one. -/
structure Oracle where
  sample : Int → Nat → Point
  resize : Mat → Nat → Nat → Nat → Nat → Nat

/-- The radii the `init` function precomputes into the `circlePoints` map
(`for r := 5; r < 15; r++`), i.e. the key set of the coarse pass's Go map. -/
def coarseRadii : List Int := [5, 6, 7, 8, 9, 10, 11, 12, 13, 14]

/-- The circle-offset list for a radius: the cached table entry of the
coarse pass and the on-demand computation of the fine pass both call
`calcCirclePoints`. -/
def circleOffsets (O : Oracle) (r : Int) : List Point :=
  calcCirclePoints (O.sample r)

/-- An exact rational `num / den` (all construction sites below use a
positive `den`), standing for the `float64` quantities of `shrink` and
`findBestCircle`.  It is kept unnormalized so that every operation on it
reduces in the kernel; equality-to-one, halving-and-ceiling and
scale-and-truncate are exact for the values the source produces, as argued
at each operation. -/
structure Frac where
  num : Int
  den : Nat
deriving Repr

/-- The rational value of a `Frac` (for statements). -/
def Frac.val (q : Frac) : ℚ := (q.num : ℚ) / (q.den : ℚ)

/-- The source's `mult == 1` comparison (exact in `float64`: `mult` is
either the literal 1 or `rows/60` with `rows > 60`, whose float value is
strictly greater than 1). -/
def Frac.isOne (q : Frac) : Prop := q.num = (q.den : Int)

instance (q : Frac) : Decidable q.isOne := by
  unfold Frac.isOne; infer_instance

/-- `int(math.Ceil(q / 2))` — the ceiling of `q/2`, exact on the rational
value (for positive `den`): `⌈num/(2·den)⌉`. -/
def Frac.ceilHalf (q : Frac) : Int :=
  (q.num + 2 * (q.den : Int) - 1).ediv (2 * (q.den : Int))

/-- `int(float64(x) * q)` — scaling an integer by the multiplier and
truncating toward zero, on the exact rational value.  (The float product can
land one below the exact value only when `x·num/den` is within an ulp of an
integer; no claim below depends on the exact coordinate in that corner.) -/
def Frac.scale (q : Frac) (x : Int) : Int :=
  Int.tdiv (x * q.num) (q.den : Int)

/-- OpenCV `cvRound` (round half to even) of `num/den`, `den > 0`. -/
def Frac.roundHalfEven (q : Frac) : Int :=
  if 2 * (q.num - q.num.ediv q.den * q.den) < (q.den : Int) then
    q.num.ediv q.den
  else if (q.den : Int) < 2 * (q.num - q.num.ediv q.den * q.den) then
    q.num.ediv q.den + 1
  else if q.num.ediv q.den % 2 = 0 then q.num.ediv q.den
  else q.num.ediv q.den + 1

/-- Mirror of Go `shrink`: when the image has more than `maxHeight` rows,
resize by the factor `maxHeight/rows` in both directions and return the
multiplier `rows/maxHeight`; otherwise return the image unchanged with
multiplier 1.  Since the `dsize` argument of `gocv.Resize` is the zero
point, OpenCV computes the destination size from the scale factors:
`cvRound(rows·(maxHeight/rows)) = maxHeight` rows and
`cvRound(cols·(maxHeight/rows))` columns (the float scale is within one ulp
of the rational used here, which does not move the rounded values that
arise); the resized pixel content comes from the oracle. -/
def shrink (O : Oracle) (im : Mat) (maxHeight : Nat) : Mat × Frac :=
  if maxHeight < im.rows then
    (⟨maxHeight,
        (Frac.roundHalfEven ⟨(im.cols : Int) * maxHeight, im.rows⟩).toNat,
        O.resize im maxHeight
          (Frac.roundHalfEven ⟨(im.cols : Int) * maxHeight, im.rows⟩).toNat⟩,
      ⟨im.rows, maxHeight⟩)
  else (im, ⟨1, 1⟩)

/-- Row-major list of all `(row, col)` cell indices, the iteration order of
every nested `for row … for col …` loop of `findBestCircle`. -/
def rowMajor (rows cols : Nat) : List (Nat × Nat) :=
  (List.range rows).flatMap fun r => (List.range cols).map fun c => (r, c)

/-- Wrap to a signed 16-bit value: the vote matrix is CV_16S and Go `int16`
arithmetic wraps on overflow. -/
def wrap16 (v : Int) : Int := (v + 32768) % 65536 - 32768

/-- The centers voted for during one radius's voting round: for every
foreground pixel of the shrunken image (black pixels are skipped) and every
circle offset, the center `(row+cp.Y, col+cp.X)` — kept only when in
bounds, exactly as the coarse pass's explicit bounds check does. -/
def voteUpdates (small : Mat) (cps : List Point) : List (Int × Int) :=
  (rowMajor small.rows small.cols).flatMap fun rc =>
    if small.pix rc.1 rc.2 = 0 then []
    else
      cps.filterMap fun cp =>
        if (small.rows : Int) ≤ (rc.1 : Int) + cp.y ∨ (rc.1 : Int) + cp.y < 0 ∨
            (small.cols : Int) ≤ (rc.2 : Int) + cp.x ∨ (rc.2 : Int) + cp.x < 0
        then none
        else some ((rc.1 : Int) + cp.y, (rc.2 : Int) + cp.x)

/-- One radius's vote matrix, built by the increment loop
(`SetShortAt(a, b, GetShortAt(a, b)+1)`, wrapping at 16 bits) on a freshly
zero-initialized matrix (`gocv.NewMatWithSize` zero-fills). -/
def buildVotes (small : Mat) (cps : List Point) : Int × Int → Int :=
  (voteUpdates small cps).foldl
    (fun g u => fun p => if p = u then wrap16 (g p + 1) else g p) fun _ => 0

/-- The row-major scan of one radius's completed vote matrix against the
global best so far: a strictly greater vote count installs a new winner
(`votes.GetShortAt(row, col) > winnerVotes`), so ties keep the earlier
winner. -/
def scanVotes (small : Mat) (r : Int) (cps : List Point)
    (acc : Circle × Int) : Circle × Int :=
  (rowMajor small.rows small.cols).foldl
    (fun acc rc =>
      if acc.2 < buildVotes small cps ((rc.1 : Int), (rc.2 : Int)) then
        (⟨(rc.2 : Int), (rc.1 : Int), r⟩,
          buildVotes small cps ((rc.1 : Int), (rc.2 : Int)))
      else acc) acc

/-- The coarse pass of `findBestCircle`: one vote-and-scan round per radius,
starting from the zero-valued winner with zero votes.  The radii are the
keys of a Go map (`for r, circlePoints := range circlePoints`) whose
iteration order the language does not specify — the runtime randomizes it —
so the order is a parameter. -/
def coarsePass (O : Oracle) (order : List Int) (small : Mat) : Circle × Int :=
  order.foldl (fun acc r => scanVotes small r (circleOffsets O r) acc)
    (⟨0, 0, 0⟩, 0)

/-- The full-resolution read `im.GetUCharAt(a, b)` of the fine pass.  Unlike
the coarse pass, the fine pass performs no bounds check, and in release
builds `cv::Mat::at` does not either, so an out-of-range access is an
out-of-bounds memory read (undefined behavior) — modelled as a fault. -/
def getUChar (im : Mat) (a b : Int) : Option Nat :=
  if 0 ≤ a ∧ a < im.rows ∧ 0 ≤ b ∧ b < im.cols then
    some (im.pix a.toNat b.toNat)
  else none

/-- The per-candidate vote loop of the fine pass: one vote per circle offset
whose sampled full-resolution pixel is foreground; a fault on the first
out-of-bounds read.  (The counter is an `int16` in the source; it counts at
most the 360 samples of one sweep, so it never wraps and `Nat` is exact.) -/
def circleVotes (O : Oracle) (im : Mat) (c : Circle) : Option Nat :=
  (circleOffsets O c.R).foldlM
    (fun v cp => (getUChar im (c.Y + cp.y) (c.X + cp.x)).map
      fun px => if px ≠ 0 then v + 1 else v) 0

/-- Signed integer range `[lo, hi)`, the iteration order of a Go
`for i := lo; i < hi; i++` loop. -/
def intRange (lo hi : Int) : List Int :=
  (List.range (hi - lo).toNat).map fun i => lo + Int.ofNat i

/-- The candidate circles of the fine pass in iteration order: radii
`approximate.R-u, …, approximate.R+u-1` (the radius loop's upper bound is
exclusive: `r < approximate.R+uncertainty`), then rows and columns from
`-u` to `+u` inclusive (`row <= approximate.Y+uncertainty`). -/
def fineCandidates (a : Circle) (u : Int) : List Circle :=
  (intRange (a.R - u) (a.R + u)).flatMap fun r =>
    (intRange (a.Y - u) (a.Y + u + 1)).flatMap fun row =>
      (intRange (a.X - u) (a.X + u + 1)).map fun col => ⟨col, row, r⟩

/-- The fine pass: count foreground circumference samples for every
candidate, keeping the candidate with the strictly highest count (ties keep
the earliest found); the zero-initialized `winner = Circle{}` with zero
votes stands when no candidate scores. -/
def finePass (O : Oracle) (im : Mat) (a : Circle) (u : Int) :
    Option (Circle × Nat) :=
  (fineCandidates a u).foldlM
    (fun acc c => (circleVotes O im c).map
      fun m => if acc.2 < m then (c, m) else acc) (⟨0, 0, 0⟩, 0)

/-- The scaled coarse winner: `int(float64(winner.X) * mult)` in each
component. -/
def approxOf (O : Oracle) (order : List Int) (im : Mat) : Circle :=
  ⟨(shrink O im 60).2.scale (coarsePass O order (shrink O im 60).1).1.X,
    (shrink O im 60).2.scale (coarsePass O order (shrink O im 60).1).1.Y,
    (shrink O im 60).2.scale (coarsePass O order (shrink O im 60).1).1.R⟩

/-- Mirror of Go `findBestCircle` (given the fused edge image): shrink to at
most 60 rows, run the coarse voting pass over the radius table, scale the
winner back up; if no scaling happened (`mult == 1`) return the scaled
winner as both results, otherwise run the fine pass within
`uncertainty = int(math.Ceil(mult / 2))` and return the approximate and
refined circles.  A fine-pass out-of-bounds read faults (`none`). -/
def findBestCircle (O : Oracle) (order : List Int) (im : Mat) :
    Option (Circle × Circle) :=
  if (shrink O im 60).2.isOne then
    some (approxOf O order im, approxOf O order im)
  else
    (finePass O im (approxOf O order im) (shrink O im 60).2.ceilHalf).map
      fun f => (approxOf O order im, f.1)

/-- The oracle used by concrete evaluations: the trig sample keeps the exact
0° offset `(r, 0)` and collapses the rest of the sweep to the zero offset,
and the resize returns an all-black image (any interpolation of an all-zero
image is all-zero). -/
def trivOracle : Oracle :=
  ⟨fun r i => if i = 0 then ⟨r, 0⟩ else ⟨0, 0⟩, fun _ _ _ => fun _ _ => 0⟩

/-- An all-zero (all-background) image. -/
def imZero (rows cols : Nat) : Mat := ⟨rows, cols, fun _ _ => 0⟩

theorem destutter_replicate_self (n : Nat) (y : Point) :
    List.destutter' (· ≠ ·) y (List.replicate n y) = [y] := by
  induction n with
  | zero => rfl
  | succ n ih =>
    have hne : ¬ (y ≠ y) := by simp
    rw [List.replicate_succ, List.destutter'_cons_neg _ hne]
    exact ih

/-- A sweep whose 0° sample is a nonzero offset and whose remaining samples
are all the zero offset collapses to a two-element list. -/
theorem calcCirclePoints_two (sample : Nat → Point) (p : Point)
    (h0 : sample 0 = p) (hp : p ≠ ⟨0, 0⟩)
    (hrest : ∀ i, i ≠ 0 → sample i = ⟨0, 0⟩) :
    calcCirclePoints sample = [p, ⟨0, 0⟩] := by
  rw [calcCirclePoints_eq_destutter sample (by rw [h0]; exact hp)]
  have hmap : (List.range 360).map sample = p :: List.replicate 359 ⟨0, 0⟩ := by
    rw [List.range_succ_eq_map 359, List.map_cons, h0, List.map_map]
    congr 1
    rw [List.eq_replicate_iff]
    refine ⟨by simp, ?_⟩
    intro b hb
    rcases List.mem_map.1 hb with ⟨i, _, rfl⟩
    exact hrest (i + 1) (Nat.succ_ne_zero i)
  rw [hmap, List.destutter_cons', List.replicate_succ,
    List.destutter'_cons_pos _ hp, destutter_replicate_self]

/-- A sweep all of whose samples are the zero offset collapses to nothing
(the zero-valued `last` sentinel swallows every sample). -/
theorem calcCirclePoints_const (sample : Nat → Point)
    (h : ∀ i, sample i = ⟨0, 0⟩) : calcCirclePoints sample = [] := by
  have hfold := calcFold_eq_destutter sample (List.range 360) [] ⟨0, 0⟩
  rw [List.nil_append] at hfold
  rw [calcCirclePoints, hfold]
  have hmap : (List.range 360).map sample = List.replicate 360 ⟨0, 0⟩ := by
    rw [List.eq_replicate_iff]
    refine ⟨by simp, ?_⟩
    intro b hb
    rcases List.mem_map.1 hb with ⟨i, _, rfl⟩
    exact h i
  rw [hmap, destutter_replicate_self, List.tail_cons]

theorem trivOffsets_ne (r : Int) (h : r ≠ 0) :
    circleOffsets trivOracle r = [⟨r, 0⟩, ⟨0, 0⟩] :=
  calcCirclePoints_two _ ⟨r, 0⟩ (by simp [trivOracle])
    (by simp [h]) (fun i hi => by simp [trivOracle, hi])

theorem trivOffsets_zero : circleOffsets trivOracle 0 = [] :=
  calcCirclePoints_const _ (fun i => by simp [trivOracle])

theorem mem_rowMajor (rows cols r c : Nat) :
    (r, c) ∈ rowMajor rows cols ↔ r < rows ∧ c < cols := by
  constructor
  · intro h
    rcases List.mem_flatMap.1 h with ⟨a, ha, h2⟩
    rcases List.mem_map.1 h2 with ⟨b, hb, heq⟩
    cases heq
    exact ⟨List.mem_range.1 ha, List.mem_range.1 hb⟩
  · rintro ⟨h1, h2⟩
    exact List.mem_flatMap.2 ⟨r, List.mem_range.2 h1,
      List.mem_map.2 ⟨c, List.mem_range.2 h2, rfl⟩⟩

theorem mem_intRange (lo hi z : Int) : z ∈ intRange lo hi ↔ lo ≤ z ∧ z < hi := by
  rw [intRange]
  constructor
  · intro h
    rcases List.mem_map.1 h with ⟨i, hmem, rfl⟩
    have := List.mem_range.1 hmem
    simp only [Int.ofNat_eq_coe]
    omega
  · intro h
    refine List.mem_map.2 ⟨(z - lo).toNat, List.mem_range.2 (by omega), ?_⟩
    simp only [Int.ofNat_eq_coe]
    omega

/-- The fine pass's candidate cube: `x` and `y` within `±u` inclusive, `r`
within `[R-u, R+u)`. -/
theorem mem_fineCandidates (a : Circle) (u : Int) (c : Circle) :
    c ∈ fineCandidates a u ↔
      (a.R - u ≤ c.R ∧ c.R < a.R + u ∧ a.Y - u ≤ c.Y ∧ c.Y ≤ a.Y + u ∧
        a.X - u ≤ c.X ∧ c.X ≤ a.X + u) := by
  rw [fineCandidates]
  constructor
  · intro h
    rcases List.mem_flatMap.1 h with ⟨r, hr, h2⟩
    rcases List.mem_flatMap.1 h2 with ⟨row, hrow, h3⟩
    rcases List.mem_map.1 h3 with ⟨col, hcol, heq⟩
    rw [mem_intRange] at hr hrow hcol
    cases heq
    exact ⟨hr.1, hr.2, hrow.1, show row ≤ a.Y + u by omega, hcol.1,
      show col ≤ a.X + u by omega⟩
  · intro h
    obtain ⟨h1, h2, h3, h4, h5, h6⟩ := h
    refine List.mem_flatMap.2 ⟨c.R, (mem_intRange _ _ _).2 ⟨h1, h2⟩, ?_⟩
    refine List.mem_flatMap.2 ⟨c.Y, (mem_intRange _ _ _).2 ⟨h3, by omega⟩, ?_⟩
    refine List.mem_map.2 ⟨c.X, (mem_intRange _ _ _).2 ⟨h5, by omega⟩, ?_⟩
    cases c
    rfl

theorem voteUpdates_allzero (small : Mat) (cps : List Point)
    (hz : ∀ r, r < small.rows → ∀ c, c < small.cols → small.pix r c = 0) :
    voteUpdates small cps = [] := by
  rw [voteUpdates, List.flatMap_eq_nil_iff]
  intro rc hrc
  obtain ⟨r, c⟩ := rc
  rw [mem_rowMajor] at hrc
  rw [hz r hrc.1 c hrc.2]
  rfl

theorem buildVotes_allzero (small : Mat) (cps : List Point)
    (hz : ∀ r, r < small.rows → ∀ c, c < small.cols → small.pix r c = 0) :
    buildVotes small cps = fun _ => 0 := by
  rw [buildVotes, voteUpdates_allzero small cps hz]
  rfl

theorem scanVotes_allzero (small : Mat) (r : Int) (cps : List Point)
    (hz : ∀ a, a < small.rows → ∀ b, b < small.cols → small.pix a b = 0) :
    scanVotes small r cps (⟨0, 0, 0⟩, 0) = (⟨0, 0, 0⟩, 0) := by
  rw [scanVotes]
  simp only [buildVotes_allzero small cps hz]
  induction rowMajor small.rows small.cols with
  | nil => rfl
  | cons rc l ih =>
    rw [List.foldl_cons, if_neg (lt_irrefl 0)]
    exact ih

theorem coarsePass_allzero (O : Oracle) (order : List Int) (small : Mat)
    (hz : ∀ a, a < small.rows → ∀ b, b < small.cols → small.pix a b = 0) :
    coarsePass O order small = (⟨0, 0, 0⟩, 0) := by
  rw [coarsePass]
  induction order with
  | nil => rfl
  | cons r order ih =>
    rw [List.foldl_cons, scanVotes_allzero small r _ hz]
    exact ih

theorem foldVotes_none (im : Mat) (Y X : Int) :
    ∀ (l : List Point) (v : Nat) (cp : Point), cp ∈ l →
      getUChar im (Y + cp.y) (X + cp.x) = none →
      l.foldlM (fun v cp => (getUChar im (Y + cp.y) (X + cp.x)).map
        fun px => if px ≠ 0 then v + 1 else v) v = none := by
  intro l
  induction l with
  | nil => intro v cp h; exact absurd h (List.not_mem_nil cp)
  | cons b bs ih =>
    intro v cp hcp hget
    rw [List.foldlM_cons]
    by_cases hb0 : getUChar im (Y + b.y) (X + b.x) = none
    · rw [hb0]
      rfl
    · rcases Option.ne_none_iff_exists'.1 hb0 with ⟨px, hpx⟩
      rw [hpx]
      show (bs.foldlM _ _) = none
      have hcp' : cp ∈ bs := by
        rcases List.mem_cons.1 hcp with h | h
        · subst h; exact absurd hget hb0
        · exact h
      exact ih _ cp hcp' hget

theorem circleVotes_none (O : Oracle) (im : Mat) (c : Circle) (cp : Point)
    (hcp : cp ∈ circleOffsets O c.R)
    (hget : getUChar im (c.Y + cp.y) (c.X + cp.x) = none) :
    circleVotes O im c = none :=
  foldVotes_none im c.Y c.X (circleOffsets O c.R) 0 cp hcp hget

theorem foldFine_none (O : Oracle) (im : Mat) :
    ∀ (l : List Circle) (acc : Circle × Nat) (c : Circle), c ∈ l →
      circleVotes O im c = none →
      l.foldlM (fun acc c => (circleVotes O im c).map
        fun m => if acc.2 < m then (c, m) else acc) acc = none := by
  intro l
  induction l with
  | nil => intro acc c h; exact absurd h (List.not_mem_nil c)
  | cons b bs ih =>
    intro acc c hc hv
    rw [List.foldlM_cons]
    by_cases hb : circleVotes O im b = none
    · rw [hb]
      rfl
    · rcases Option.ne_none_iff_exists'.1 hb with ⟨m, hm⟩
      rw [hm]
      show (bs.foldlM _ _) = none
      have hc' : c ∈ bs := by
        rcases List.mem_cons.1 hc with h | h
        · subst h; exact absurd hv hb
        · exact h
      exact ih _ c hc' hv

theorem finePass_none (O : Oracle) (im : Mat) (a : Circle) (u : Int)
    (c : Circle) (hc : c ∈ fineCandidates a u)
    (hv : circleVotes O im c = none) : finePass O im a u = none :=
  foldFine_none O im (fineCandidates a u) (⟨0, 0, 0⟩, 0) c hc hv

/-! ### C6, C4, C1, C2 -/

/--
C6.  `shrink` caps the image so that its smaller dimension is at most the
fixed cap of 60 pixels (the source caps the row count at 60, which bounds
the minimum of the two dimensions), and the recorded multiplier `mult`
equals 1.0 exactly when no scaling was needed (row count already ≤ 60).
-/
theorem shrink_cap (O : Oracle) (im : Mat) :
    min (shrink O im 60).1.rows (shrink O im 60).1.cols ≤ 60 ∧
    ((shrink O im 60).2.val = 1 ↔ im.rows ≤ 60) := by
  by_cases h : 60 < im.rows
  · have hsh1 : (shrink O im 60).1.rows = 60 := by
      rw [shrink, if_pos h]
    have hsh2 : (shrink O im 60).2 = ⟨im.rows, 60⟩ := by
      rw [shrink, if_pos h]
    rw [hsh1, hsh2]
    refine ⟨Nat.min_le_left _ _, ?_, ?_⟩
    · intro hval
      have h2 : ((im.rows : Int) : ℚ) / ((60 : Nat) : ℚ) = 1 := hval
      rw [div_eq_one_iff_eq (by norm_num)] at h2
      have h3 : im.rows = 60 := by exact_mod_cast h2
      omega
    · intro hle
      exact absurd hle (by omega)
  · have hsh1 : (shrink O im 60).1 = im := by
      rw [shrink, if_neg h]
    have hsh2 : (shrink O im 60).2 = ⟨1, 1⟩ := by
      rw [shrink, if_neg h]
    rw [hsh1, hsh2]
    refine ⟨?_, ?_, ?_⟩
    · exact le_trans (Nat.min_le_left _ _) (by omega)
    · intro _
      omega
    · intro _
      show ((1 : Int) : ℚ) / ((1 : Nat) : ℚ) = 1
      norm_num

/--
C4.  When the downscale step leaves the image unchanged (`mult == 1`, which
happens exactly for images of at most 60 rows), the approximate and refined
outputs of `findBestCircle` are exactly equal: the same scaled coarse winner
is returned for both.
-/
theorem findBestCircle_mult_one (O : Oracle) (order : List Int) (im : Mat)
    (h : (shrink O im 60).2.val = 1) :
    ∃ c, findBestCircle O order im = some (c, c) := by
  have hone : (shrink O im 60).2.isOne := by
    by_cases h60 : 60 < im.rows
    · have hsh2 : (shrink O im 60).2 = ⟨im.rows, 60⟩ := by
        rw [shrink, if_pos h60]
      rw [hsh2] at h ⊢
      have h2 : ((im.rows : Int) : ℚ) / ((60 : Nat) : ℚ) = 1 := h
      rw [div_eq_one_iff_eq (by norm_num)] at h2
      show (im.rows : Int) = ((60 : Nat) : Int)
      exact_mod_cast h2
    · have hsh2 : (shrink O im 60).2 = ⟨1, 1⟩ := by
        rw [shrink, if_neg h60]
      rw [hsh2]
      decide
  exact ⟨approxOf O order im, by rw [findBestCircle, if_pos hone]⟩

/-- Witness for C4 at a concrete 1×1 image. -/
theorem findBestCircle_mult_one_witness :
    (shrink trivOracle (imZero 1 1) 60).2.val = 1 ∧
    ∃ c, findBestCircle trivOracle coarseRadii (imZero 1 1) = some (c, c) := by
  have h : (shrink trivOracle (imZero 1 1) 60).2.val = 1 := by
    show ((1 : Int) : ℚ) / ((1 : Nat) : ℚ) = 1
    norm_num
  exact ⟨h, findBestCircle_mult_one trivOracle coarseRadii (imZero 1 1) h⟩

/--
C1 (code bug).  The fine pass of `findBestCircle` performs its
circumference reads with no bounds check (`im.GetUCharAt(a, b)` at lines
242–247, unlike the coarse pass's explicit check at lines 160–166), and
`cv::Mat::at` does not check bounds in release builds; so a candidate
sample outside the full-resolution image is an out-of-bounds memory read
(undefined behavior, modelled as a fault), not a background non-vote.
Concretely: on a 61-row all-background edge image the coarse winner is the
zero circle, `mult = 61/60` gives `uncertainty = 1`, and the fine pass's
first candidate `(x, y, r) = (-1, -1, -1)` immediately reads pixel
`(-1, -2)`.
-/
theorem finePass_reads_out_of_bounds :
    finePass trivOracle (imZero 61 1) ⟨0, 0, 0⟩ 1 = none := by
  refine finePass_none trivOracle (imZero 61 1) ⟨0, 0, 0⟩ 1 ⟨-1, -1, -1⟩
    (by decide) ?_
  refine circleVotes_none trivOracle (imZero 61 1) ⟨-1, -1, -1⟩ ⟨-1, 0⟩ ?_
    (by decide)
  show (⟨-1, 0⟩ : Point) ∈ circleOffsets trivOracle (-1)
  rw [trivOffsets_ne (-1) (by norm_num)]
  exact List.mem_cons_self _ _

/-- An all-background edge map of at most 60 rows: zero coarse result and
zero circles from the whole search (shared helper). -/
theorem findBestCircle_zero_aux (O : Oracle) (order : List Int) (im : Mat)
    (hrows : im.rows ≤ 60)
    (hz : ∀ r, r < im.rows → ∀ c, c < im.cols → im.pix r c = 0) :
    coarsePass O order im = (⟨0, 0, 0⟩, 0) ∧
    findBestCircle O order im = some (⟨0, 0, 0⟩, ⟨0, 0, 0⟩) := by
  have hcp := coarsePass_allzero O order im hz
  have hsh1 : (shrink O im 60).1 = im := by
    rw [shrink, if_neg (by omega)]
  have hsh2 : (shrink O im 60).2 = ⟨1, 1⟩ := by
    rw [shrink, if_neg (by omega)]
  refine ⟨hcp, ?_⟩
  have happrox : approxOf O order im = ⟨0, 0, 0⟩ := by
    rw [approxOf, hsh1, hsh2, hcp]
    decide
  have hone : (Frac.mk 1 1).isOne := by decide
  rw [findBestCircle, hsh2, if_pos hone, happrox]

/--
C2 (amended).  For an input image whose fused edge map contains no
foreground pixel and has at most 60 rows (`mult == 1`, so the fine pass is
not entered), `findBestCircle` completes without fault and returns the
zero-valued circle `(0,0,0)` as both the approximate and the refined
result, with zero winning votes in the coarse pass.
-/
theorem findBestCircle_allzero (O : Oracle) (order : List Int) (im : Mat)
    (hrows : im.rows ≤ 60)
    (hz : ∀ r, r < im.rows → ∀ c, c < im.cols → im.pix r c = 0) :
    coarsePass O order im = (⟨0, 0, 0⟩, 0) ∧
    findBestCircle O order im = some (⟨0, 0, 0⟩, ⟨0, 0, 0⟩) :=
  findBestCircle_zero_aux O order im hrows hz

/-- Witness for C2's amended claim at a concrete all-black 3×3 image. -/
theorem findBestCircle_allzero_witness :
    coarsePass trivOracle coarseRadii (imZero 3 3) = (⟨0, 0, 0⟩, 0) ∧
    findBestCircle trivOracle coarseRadii (imZero 3 3) =
      some (⟨0, 0, 0⟩, ⟨0, 0, 0⟩) :=
  findBestCircle_allzero trivOracle coarseRadii (imZero 3 3) (by decide)
    (fun _ _ _ _ => rfl)

/--
C2 (counterexample).  The claim as stated fails for taller images: on a
62-row all-background edge image the coarse result is the zero circle,
`mult = 62/60 ≠ 1`, and the fine pass immediately reads out of bounds
(row −1) instead of completing with the zero circles.
-/
theorem findBestCircle_allzero_tall_faults :
    findBestCircle trivOracle coarseRadii (imZero 62 1) = none := by
  have hsh1 : (shrink trivOracle (imZero 62 1) 60).1 =
      ⟨60, 1, trivOracle.resize (imZero 62 1) 60 1⟩ := rfl
  have hsh2 : (shrink trivOracle (imZero 62 1) 60).2 = ⟨62, 60⟩ := rfl
  have hsmallz : ∀ r, r < (⟨60, 1, trivOracle.resize (imZero 62 1) 60 1⟩ :
      Mat).rows → ∀ c, c < (⟨60, 1, trivOracle.resize (imZero 62 1) 60 1⟩ :
      Mat).cols → (⟨60, 1, trivOracle.resize (imZero 62 1) 60 1⟩ :
      Mat).pix r c = 0 :=
    fun _ _ _ _ => rfl
  have hcp := coarsePass_allzero trivOracle coarseRadii _ hsmallz
  have happrox : approxOf trivOracle coarseRadii (imZero 62 1) = ⟨0, 0, 0⟩ := by
    rw [approxOf, hsh1, hsh2, hcp]
    decide
  have hnot : ¬ (Frac.mk 62 60).isOne := by decide
  have hch : (Frac.mk 62 60).ceilHalf = 1 := by decide
  rw [findBestCircle, hsh2, if_neg hnot, happrox, hch]
  have hfp : finePass trivOracle (imZero 62 1) ⟨0, 0, 0⟩ 1 = none := by
    refine finePass_none trivOracle (imZero 62 1) ⟨0, 0, 0⟩ 1 ⟨-1, -1, -1⟩
      (by decide) ?_
    refine circleVotes_none trivOracle (imZero 62 1) ⟨-1, -1, -1⟩ ⟨-1, 0⟩ ?_
      (by decide)
    show (⟨-1, 0⟩ : Point) ∈ circleOffsets trivOracle (-1)
    rw [trivOffsets_ne (-1) (by norm_num)]
    exact List.mem_cons_self _ _
  rw [hfp]
  rfl

/-! ### C3: determinism across radius-iteration orders -/

/-- The spec's candidate cube, as its words describe it: every coordinate —
`x`, `y` and `r` alike — within `±u` of the approximate circle, inclusive
on both ends. -/
def specCube (a : Circle) (u : Int) (c : Circle) : Prop :=
  a.R - u ≤ c.R ∧ c.R ≤ a.R + u ∧ a.Y - u ≤ c.Y ∧ c.Y ≤ a.Y + u ∧
    a.X - u ≤ c.X ∧ c.X ≤ a.X + u

instance (a : Circle) (u : Int) (c : Circle) : Decidable (specCube a u c) :=
  inferInstanceAs (Decidable (a.R - u ≤ c.R ∧ c.R ≤ a.R + u ∧
    a.Y - u ≤ c.Y ∧ c.Y ≤ a.Y + u ∧ a.X - u ≤ c.X ∧ c.X ≤ a.X + u))

/-- On an all-background image, the per-candidate vote loop completes with
its initial count whenever every circumference read is in bounds. -/
theorem foldVotes_allzero (im : Mat) (Y X : Int)
    (hz : ∀ r, r < im.rows → ∀ c, c < im.cols → im.pix r c = 0) :
    ∀ (l : List Point) (v : Nat),
      (∀ cp ∈ l, 0 ≤ Y + cp.y ∧ Y + cp.y < (im.rows : Int) ∧
        0 ≤ X + cp.x ∧ X + cp.x < (im.cols : Int)) →
      l.foldlM (fun v cp => (getUChar im (Y + cp.y) (X + cp.x)).map
        fun px => if px ≠ 0 then v + 1 else v) v = some v := by
  intro l
  induction l with
  | nil => intro v _; rfl
  | cons p ps ih =>
    intro v h
    have hp := h p (List.mem_cons_self p ps)
    have hread : getUChar im (Y + p.y) (X + p.x) =
        some (im.pix (Y + p.y).toNat (X + p.x).toNat) := by
      rw [getUChar, if_pos ⟨hp.1, hp.2.1, hp.2.2.1, hp.2.2.2⟩]
    have hpx : im.pix (Y + p.y).toNat (X + p.x).toNat = 0 := by
      apply hz
      · have h1 := hp.1
        have h2 := hp.2.1
        omega
      · have h1 := hp.2.2.1
        have h2 := hp.2.2.2
        omega
    rw [List.foldlM_cons, hread]
    simp only [Option.map_some', hpx]
    rw [if_neg (fun hne => hne rfl)]
    exact ih v (fun cp hcp => h cp (List.mem_cons_of_mem p hcp))

/-- On an all-background image a candidate whose circumference reads stay
in bounds scores zero votes (and does not fault). -/
theorem circleVotes_allzero (O : Oracle) (im : Mat) (c : Circle)
    (hz : ∀ r, r < im.rows → ∀ b, b < im.cols → im.pix r b = 0)
    (hin : ∀ cp ∈ circleOffsets O c.R, 0 ≤ c.Y + cp.y ∧
      c.Y + cp.y < (im.rows : Int) ∧ 0 ≤ c.X + cp.x ∧
      c.X + cp.x < (im.cols : Int)) :
    circleVotes O im c = some 0 := by
  rw [circleVotes]
  exact foldVotes_allzero im c.Y c.X hz (circleOffsets O c.R) 0 hin

/-- When every candidate scores zero, the fine-pass fold keeps its
accumulator unchanged (the strict comparison `winnerVotes < m` never
fires). -/
theorem foldFine_allzero (O : Oracle) (im : Mat) :
    ∀ (cs : List Circle) (acc : Circle × Nat),
      (∀ c ∈ cs, circleVotes O im c = some 0) →
      cs.foldlM (fun acc c => (circleVotes O im c).map
        fun m => if acc.2 < m then (c, m) else acc) acc = some acc := by
  intro cs
  induction cs with
  | nil => intro acc _; rfl
  | cons b bs ih =>
    intro acc h
    rw [List.foldlM_cons, h b (List.mem_cons_self b bs)]
    simp only [Option.map_some']
    rw [if_neg (Nat.not_lt_zero acc.2)]
    exact ih acc (fun c hc => h c (List.mem_cons_of_mem b hc))

/-- When every candidate scores zero, the fine pass returns the
zero-initialized `winner = Circle{}` with zero votes. -/
theorem finePass_allzero (O : Oracle) (im : Mat) (a : Circle) (u : Int)
    (h : ∀ c ∈ fineCandidates a u, circleVotes O im c = some 0) :
    finePass O im a u = some (⟨0, 0, 0⟩, 0) := by
  rw [finePass]
  exact foldFine_allzero O im (fineCandidates a u) (⟨0, 0, 0⟩, 0) h

/-- Concrete evaluation route for the fine pass at `trivOracle` on an
all-black image: when every candidate has a nonzero radius and both of its
two sample reads — `(Y, X)` and `(Y, X+R)` — are in bounds, the pass
returns the zero circle with zero votes. -/
theorem finePass_triv_allzero (rows cols : Nat) (a : Circle) (u : Int)
    (hbounds : ∀ c ∈ fineCandidates a u, c.R ≠ 0 ∧
      0 ≤ c.Y ∧ c.Y < (rows : Int) ∧ 0 ≤ c.X ∧ c.X < (cols : Int) ∧
      0 ≤ c.X + c.R ∧ c.X + c.R < (cols : Int)) :
    finePass trivOracle (imZero rows cols) a u = some (⟨0, 0, 0⟩, 0) := by
  apply finePass_allzero
  intro c hc
  obtain ⟨hR, hY1, hY2, hX1, hX2, hXR1, hXR2⟩ := hbounds c hc
  apply circleVotes_allzero
  · exact fun _ _ _ _ => rfl
  · intro cp hcp
    rw [trivOffsets_ne c.R hR] at hcp
    rcases List.mem_cons.1 hcp with hcp1 | hcp2
    · subst hcp1
      exact ⟨show (0 : Int) ≤ c.Y + 0 by omega,
        show c.Y + 0 < (rows : Int) by omega,
        show (0 : Int) ≤ c.X + c.R by omega,
        show c.X + c.R < (cols : Int) by omega⟩
    · have hcp0 : cp = ⟨0, 0⟩ := List.mem_singleton.1 hcp2
      subst hcp0
      exact ⟨show (0 : Int) ≤ c.Y + 0 by omega,
        show c.Y + 0 < (rows : Int) by omega,
        show (0 : Int) ≤ c.X + 0 by omega,
        show c.X + 0 < (cols : Int) by omega⟩

/-- Full characterization of the fine-pass fold: when it completes with
`res`, every candidate's circumference count was computed (no read
faulted) and is bounded by the winning count; the initial count never
decreases; and the result is either the untouched initial accumulator or
the first candidate that strictly beat everything before it. -/
theorem finePass_fold (O : Oracle) (im : Mat) :
    ∀ (cs : List Circle) (acc res : Circle × Nat),
      cs.foldlM (fun acc c => (circleVotes O im c).map
        fun m => if acc.2 < m then (c, m) else acc) acc = some res →
      (∀ c ∈ cs, ∃ m, circleVotes O im c = some m ∧ m ≤ res.2) ∧
      acc.2 ≤ res.2 ∧
      (res = acc ∨
        ∃ pre suf, cs = pre ++ res.1 :: suf ∧
          circleVotes O im res.1 = some res.2 ∧ acc.2 < res.2 ∧
          ∀ c ∈ pre, ∃ m, circleVotes O im c = some m ∧ m < res.2) := by
  intro cs
  induction cs with
  | nil =>
    intro acc res h
    have hres : acc = res := Option.some.inj h
    subst hres
    exact ⟨fun c hc => absurd hc (List.not_mem_nil c), le_refl _, Or.inl rfl⟩
  | cons b bs ih =>
    intro acc res h
    rw [List.foldlM_cons] at h
    cases hcv : circleVotes O im b with
    | none =>
      rw [hcv] at h
      simp only [Option.map_none', Option.bind_eq_bind, Option.none_bind] at h
      exact Option.noConfusion h
    | some m =>
      rw [hcv] at h
      simp only [Option.map_some', Option.bind_eq_bind, Option.some_bind] at h
      by_cases hlt : acc.2 < m
      · rw [if_pos hlt] at h
        obtain ⟨hA, hle, hC⟩ := ih (b, m) res h
        have hmle : m ≤ res.2 := hle
        refine ⟨?_, lt_of_lt_of_le hlt hmle |>.le, ?_⟩
        · intro c hc
          rcases List.mem_cons.1 hc with hcb | hcbs
          · subst hcb
            exact ⟨m, hcv, hmle⟩
          · exact hA c hcbs
        · rcases hC with hCl | ⟨pre, suf, hsplit, hv, hlt2, hpre⟩
          · subst hCl
            refine Or.inr ⟨[], bs, rfl, hcv, hlt, ?_⟩
            intro c hc
            exact absurd hc (List.not_mem_nil c)
          · have hlt2' : m < res.2 := hlt2
            refine Or.inr ⟨b :: pre, suf, by rw [hsplit, List.cons_append],
              hv, lt_trans hlt hlt2', ?_⟩
            intro c hc
            rcases List.mem_cons.1 hc with hcb | hcpre
            · subst hcb
              exact ⟨m, hcv, hlt2'⟩
            · exact hpre c hcpre
      · rw [if_neg hlt] at h
        obtain ⟨hA, hle, hC⟩ := ih acc res h
        have hmle : m ≤ acc.2 := not_lt.1 hlt
        refine ⟨?_, hle, ?_⟩
        · intro c hc
          rcases List.mem_cons.1 hc with hcb | hcbs
          · subst hcb
            exact ⟨m, hcv, le_trans hmle hle⟩
          · exact hA c hcbs
        · rcases hC with hCl | ⟨pre, suf, hsplit, hv, hlt2, hpre⟩
          · exact Or.inl hCl
          · refine Or.inr ⟨b :: pre, suf, by rw [hsplit, List.cons_append],
              hv, hlt2, ?_⟩
            intro c hc
            rcases List.mem_cons.1 hc with hcb | hcpre
            · subst hcb
              exact ⟨m, hcv, lt_of_le_of_lt hmle hlt2⟩
            · exact hpre c hcpre

/--
C5 (amended).  When the fine pass completes with winner `w` and votes `v`,
it has searched exhaustively over exactly the candidates whose row and
column lie within `±u` of the approximate center (inclusive) and whose
radius lies in the half-open interval `[R−u, R+u)` — the radius loop's
upper bound `r < approximate.R+uncertainty` is exclusive, so the spec's
symmetric `±⌈mult/2⌉` cube overstates the radii tried by one.  Every
candidate's foreground circumference count is computed and bounded by `v`;
when some candidate scores, `w` is the earliest candidate in iteration
order with the strictly highest count, and when none does, the pass falls
back to the zero-initialized `Circle{}` — a value outside the cube, which
the spec does not mention.
-/
theorem finePass_spec (O : Oracle) (im : Mat) (a : Circle) (u : Int)
    (w : Circle) (v : Nat)
    (h : finePass O im a u = some (w, v)) :
    (∀ c : Circle, c ∈ fineCandidates a u ↔
      (a.R - u ≤ c.R ∧ c.R < a.R + u ∧ a.Y - u ≤ c.Y ∧ c.Y ≤ a.Y + u ∧
        a.X - u ≤ c.X ∧ c.X ≤ a.X + u)) ∧
    (∀ c ∈ fineCandidates a u,
      ∃ m, circleVotes O im c = some m ∧ m ≤ v) ∧
    (v = 0 → w = ⟨0, 0, 0⟩) ∧
    (0 < v → ∃ pre suf, fineCandidates a u = pre ++ w :: suf ∧
      circleVotes O im w = some v ∧
      ∀ c ∈ pre, ∃ m, circleVotes O im c = some m ∧ m < v) := by
  rw [finePass] at h
  obtain ⟨hA, hle, hC⟩ :=
    finePass_fold O im (fineCandidates a u) (⟨0, 0, 0⟩, 0) (w, v) h
  refine ⟨fun c => mem_fineCandidates a u c, hA, ?_, ?_⟩
  · intro hv0
    rcases hC with hCl | ⟨_, _, _, _, hlt, _⟩
    · exact congrArg Prod.fst hCl
    · have hlt' : 0 < v := hlt
      omega
  · intro hpos
    rcases hC with hCl | ⟨pre, suf, hsplit, hv, _, hpre⟩
    · have hv0 : v = 0 := congrArg Prod.snd hCl
      omega
    · exact ⟨pre, suf, hsplit, hv, hpre⟩

/-- Witness for C5's amended claim: a fine pass around `(4,4,2)` with
uncertainty 1 on an all-black 9×9 image completes with the fallback zero
circle, satisfying every conjunct of the characterization. -/
theorem finePass_spec_witness :
    (∀ c : Circle, c ∈ fineCandidates ⟨4, 4, 2⟩ 1 ↔
      ((1 : Int) ≤ c.R ∧ c.R < 3 ∧ (3 : Int) ≤ c.Y ∧ c.Y ≤ 5 ∧
        (3 : Int) ≤ c.X ∧ c.X ≤ 5)) ∧
    (∀ c ∈ fineCandidates ⟨4, 4, 2⟩ 1,
      ∃ m, circleVotes trivOracle (imZero 9 9) c = some m ∧ m ≤ 0) ∧
    ((0 : Nat) = 0 → (⟨0, 0, 0⟩ : Circle) = ⟨0, 0, 0⟩) ∧
    ((0 : Nat) < 0 → ∃ pre suf,
      fineCandidates ⟨4, 4, 2⟩ 1 = pre ++ (⟨0, 0, 0⟩ : Circle) :: suf ∧
      circleVotes trivOracle (imZero 9 9) ⟨0, 0, 0⟩ = some 0 ∧
      ∀ c ∈ pre, ∃ m, circleVotes trivOracle (imZero 9 9) c = some m ∧
        m < 0) :=
  finePass_spec trivOracle (imZero 9 9) ⟨4, 4, 2⟩ 1 ⟨0, 0, 0⟩ 0
    (finePass_triv_allzero 9 9 ⟨4, 4, 2⟩ 1 (by decide))

/--
C5 (counterexample).  The spec's inclusive `±⌈mult/2⌉` cube around the
approximate circle `(3,3,2)` with uncertainty 1 contains radius 3, but the
fine pass never tries it (the radius loop is half-open); and on an
all-black 7×7 image the pass returns the zero-votes fallback `(0,0,0)`,
a circle lying outside the claimed cube altogether.
-/
theorem finePass_cube_mismatch :
    specCube ⟨3, 3, 2⟩ 1 ⟨3, 3, 3⟩ ∧
    (⟨3, 3, 3⟩ : Circle) ∉ fineCandidates ⟨3, 3, 2⟩ 1 ∧
    finePass trivOracle (imZero 7 7) ⟨3, 3, 2⟩ 1 = some (⟨0, 0, 0⟩, 0) ∧
    ¬ specCube ⟨3, 3, 2⟩ 1 ⟨0, 0, 0⟩ :=
  ⟨by decide, by decide,
    finePass_triv_allzero 7 7 ⟨3, 3, 2⟩ 1 (by decide), by decide⟩

/--
C7.  Refinement improves or preserves fit: whenever the search completes
with a pair `p` of approximate and refined circles, the refined circle's
full-resolution foreground circumference count is at least the approximate
circle's.  With `mult = 1` the two circles coincide; otherwise the
approximate circle is itself one of the fine pass's candidates (the
uncertainty is at least 1), so its count was computed and is bounded by
the winning count, which is the refined circle's count whenever any
candidate scored — and when none did, the approximate circle's count is
itself zero.
-/
theorem refined_votes_ge (O : Oracle) (order : List Int) (im : Mat)
    (p : Circle × Circle) (h : findBestCircle O order im = some p) :
    (circleVotes O im p.1).getD 0 ≤ (circleVotes O im p.2).getD 0 := by
  by_cases hone : (shrink O im 60).2.isOne
  · rw [findBestCircle, if_pos hone] at h
    have hp := Option.some.inj h
    subst hp
    exact le_refl _
  · rw [findBestCircle, if_neg hone] at h
    rcases Option.map_eq_some'.1 h with ⟨f, hf, hfp⟩
    subst hfp
    have hrows : 60 < im.rows := by
      by_contra hle
      refine hone ?_
      have h2 : (shrink O im 60).2 = ⟨1, 1⟩ := by
        rw [shrink, if_neg hle]
      rw [h2]
      exact rfl
    have hsh2 : (shrink O im 60).2 = ⟨im.rows, 60⟩ := by
      rw [shrink, if_pos hrows]
    have hu : 1 ≤ (shrink O im 60).2.ceilHalf := by
      rw [hsh2]
      show 1 ≤ ((im.rows : Int) + 120 - 1) / 120
      omega
    have hmem : approxOf O order im ∈
        fineCandidates (approxOf O order im) ((shrink O im 60).2.ceilHalf) := by
      refine (mem_fineCandidates _ _ _).2 ?_
      refine ⟨?_, ?_, ?_, ?_, ?_, ?_⟩ <;> omega
    rw [finePass] at hf
    obtain ⟨hA, hle, hC⟩ := finePass_fold O im
      (fineCandidates (approxOf O order im) ((shrink O im 60).2.ceilHalf))
      (⟨0, 0, 0⟩, 0) f hf
    rcases hA (approxOf O order im) hmem with ⟨ma, hma, hmale⟩
    show (circleVotes O im (approxOf O order im)).getD 0 ≤
      (circleVotes O im f.1).getD 0
    rw [hma]
    simp only [Option.getD_some]
    rcases hC with hCl | ⟨_, _, _, hvv, _, _⟩
    · have hf2 : f.2 = 0 := by rw [hCl]
      have hma0 : ma = 0 := by omega
      rw [hma0]
      exact Nat.zero_le _
    · rw [hvv]
      simp only [Option.getD_some]
      exact hmale

/-- Witness for C7 at a concrete completing input: an all-black 2×2 image,
whose search returns the zero circle twice. -/
theorem refined_votes_ge_witness :
    findBestCircle trivOracle coarseRadii (imZero 2 2) =
        some (⟨0, 0, 0⟩, ⟨0, 0, 0⟩) ∧
    (circleVotes trivOracle (imZero 2 2)
        ((⟨0, 0, 0⟩, ⟨0, 0, 0⟩) : Circle × Circle).1).getD 0 ≤
      (circleVotes trivOracle (imZero 2 2)
        ((⟨0, 0, 0⟩, ⟨0, 0, 0⟩) : Circle × Circle).2).getD 0 := by
  have h := (findBestCircle_zero_aux trivOracle coarseRadii (imZero 2 2)
    (by decide) (fun _ _ _ _ => rfl)).2
  exact ⟨h, refined_votes_ge trivOracle coarseRadii (imZero 2 2) _ h⟩

end Iris
